import Mathlib

/-!
Verification of the job-control core of the rlsh shell.

The development embeds, in order:
* decimal rendering of unsigned integers (modelling the Rust `Display`
  implementation used by the `write!` format strings);
* the HashMap-based job table of `src/shell/job_list.rs` (namespace `Shell`),
  together with the post-spawn control flow of `Executable::run_command`
  from `src/lib.rs`;
* the array-based job-table snapshot of `src/job_list.rs` (namespace `Root`).

The `HashMap<usize, Job>` is embedded as an association list with unique
keys; `insert` replaces an existing binding and reports the previous one,
`remove` deletes the binding, exactly as the Rust map does.
-/

/-- The newline character, written by code point to keep the text plain. -/
def newlineChar : Char := Char.ofNat 10

/-- The apostrophe character, written by code point to keep the text plain. -/
def aposChar : Char := Char.ofNat 39

/-- The error message returned by `JobList::add` on a foreground conflict.
It reads: Can, apostrophe, t add a foreground job if a foreground job
already exists. -/
def fgConflictMsg : String :=
  "Can" ++ String.mk [aposChar] ++ "t add a foreground job if a foreground job already exists"

/-- Decimal digit characters, as produced by the Rust integer formatter. -/
def digitChar (n : Nat) : Char :=
  if n = 0 then '0' else if n = 1 then '1' else if n = 2 then '2'
  else if n = 3 then '3' else if n = 4 then '4' else if n = 5 then '5'
  else if n = 6 then '6' else if n = 7 then '7' else if n = 8 then '8'
  else if n = 9 then '9' else '*'

/-- Fuel-indexed accumulator loop producing the decimal digits of `n`,
most significant first. `natRepr` supplies enough fuel for any input. -/
def natReprAux : Nat → Nat → List Char → List Char
  | 0, _, acc => acc
  | fuel + 1, n, acc =>
    if n < 10 then digitChar n :: acc
    else natReprAux fuel (n / 10) (digitChar (n % 10) :: acc)

/-- Decimal rendering of a natural number, modelling Rust `{}` formatting of
`usize`/`u32` values. -/
def natRepr (n : Nat) : String := String.mk (natReprAux (n + 1) n [])

deriving instance DecidableEq for Except

namespace Shell

/-- Job state of `src/shell/job_list.rs`: background or foreground. -/
inductive State where
  | BG : State
  | FG : State
deriving DecidableEq

/-- The `Display` implementation for `State` in `src/shell/job_list.rs`. -/
def State.render : State → String
  | State.BG => "Background"
  | State.FG => "Foreground"

/-- One tracked job: pid, state and original command line. -/
structure Job where
  pid : Nat
  state : State
  cmdline : String
deriving DecidableEq

/-- The contents of `JobData`: the `HashMap<usize, Job>` is embedded as an
association list with unique keys, plus the foreground job id and the
current maximum job id. -/
structure JobData where
  jobs : List (Nat × Job)
  fg_job : Option Nat
  max_jid : Option Nat
deriving DecidableEq

/-- Lookup in the embedded hash map (`HashMap::get`). -/
def hmGet : List (Nat × Job) → Nat → Option Job
  | [], _ => none
  | (k, v) :: rest, j => if k = j then some v else hmGet rest j

/-- Removal from the embedded hash map (`HashMap::remove`): deletes the
binding for the key if present. -/
def hmRemoveKey : List (Nat × Job) → Nat → List (Nat × Job)
  | [], _ => []
  | (k, v) :: rest, j => if k = j then rest else (k, v) :: hmRemoveKey rest j

/-- Insertion into the embedded hash map (`HashMap::insert`): replaces any
existing binding for the key. The previous binding, which `insert` returns
in Rust, is recovered by `hmGet` before the insertion. -/
def hmInsert (m : List (Nat × Job)) (k : Nat) (v : Job) : List (Nat × Job) :=
  (k, v) :: hmRemoveKey m k

/-- The maximum key of the map, or `none` when it is empty; this is
`job_list.jobs.keys().reduce(cmp::max)` from `JobList::delete`. -/
def keysMax : List (Nat × Job) → Option Nat
  | [] => none
  | (k, _) :: rest =>
    match keysMax rest with
    | none => some k
    | some m => some (max k m)

/-- `JobList::new`: the empty job list. -/
def JobList.new : JobData :=
  { jobs := [], fg_job := none, max_jid := none }

/-- The job id `JobList::add` computes for the next job: `max_jid + 1`, or
`0` when the table has no maximum. -/
def nextJid (d : JobData) : Nat :=
  match d.max_jid with
  | none => 0
  | some id => id + 1

/-- `JobList::add` from `src/shell/job_list.rs`. The result pairs the
returned `Result<usize, &str>` with the table contents after the call;
the nested `if let` chain of the source is flattened into the equivalent
conjunction tests. Note that in the duplicate-jid branch the source has
already updated `fg_job`, `max_jid` and the map before it returns the
error, and the embedding preserves that. -/
def JobList.add (d : JobData) (pid : Nat) (st : State) (cmdline : String) :
    Except String Nat × JobData :=
  let jid := nextJid d
  if st = State.FG ∧ d.fg_job.isSome then
    (Except.error fgConflictMsg, d)
  else
    let d1 := if st = State.FG then { d with fg_job := some jid } else d
    let d2 := { d1 with max_jid := some jid }
    let old := hmGet d2.jobs jid
    let d3 := { d2 with jobs := hmInsert d2.jobs jid { pid := pid, state := st, cmdline := cmdline } }
    if old.isSome then (Except.error "Inserted job with duplicate jid", d3)
    else (Except.ok jid, d3)

/-- `JobList::delete` from `src/shell/job_list.rs`: removes the binding,
recomputes `max_jid` when the removed id was the maximum, clears `fg_job`
when the removed id was the foreground job, and returns whether a binding
was removed. -/
def JobList.delete (d : JobData) (jid : Nat) : Bool × JobData :=
  let removeStatus := hmGet d.jobs jid
  let d1 := { d with jobs := hmRemoveKey d.jobs jid }
  let d2 :=
    match d1.max_jid with
    | some id => if jid = id then { d1 with max_jid := keysMax d1.jobs } else d1
    | none => d1
  let d3 :=
    match d2.fg_job with
    | some id => if id = jid then { d2 with fg_job := none } else d2
    | none => d2
  (removeStatus.isSome, d3)

/-- `JobList::get_state`. -/
def JobList.get_state (d : JobData) (jid : Nat) : Option State :=
  (hmGet d.jobs jid).map Job.state

/-- `JobList::get_pid`. -/
def JobList.get_pid (d : JobData) (jid : Nat) : Option Nat :=
  (hmGet d.jobs jid).map Job.pid

/-- `JobList::get_cmdline`. -/
def JobList.get_cmdline (d : JobData) (jid : Nat) : Option String :=
  (hmGet d.jobs jid).map Job.cmdline

/-- The text `JobList::print_jobs` writes for one entry: the format string
is the bracketed jid, the parenthesised pid, the rendered state and the
command line, with no trailing separator. -/
def formatJob (jid : Nat) (j : Job) : String :=
  "[" ++ natRepr jid ++ "] (" ++ natRepr j.pid ++ ") " ++ State.render j.state ++ " " ++ j.cmdline

/-- The writer loop of `JobList::print_jobs`: each entry is written in
turn with `write!`, which appends no separator of its own. -/
def printJobsAux : List (Nat × Job) → String
  | [] => ""
  | p :: rest => formatJob p.1 p.2 ++ printJobsAux rest

/-- `JobList::print_jobs`: the full text written to the sink, one
`formatJob` block per entry in iteration order. -/
def JobList.print_jobs (d : JobData) : String :=
  printJobsAux d.jobs

/-- Table states reachable from the empty table by the mutating public
operations (`add`, `delete`); the remaining public operations of the
source take `&self` only through a lock and never change the contents. -/
inductive Reachable : JobData → Prop where
  | init : Reachable JobList.new
  | step_add : ∀ d pid st cmd, Reachable d → Reachable (JobList.add d pid st cmd).2
  | step_delete : ∀ d jid, Reachable d → Reachable (JobList.delete d jid).2

/-- The conjunction of the data-model invariants I1 and I3, phrased
decidably: keys are unique; every foreground entry is the one `fg_job`
names; `fg_job`, when present, names a present foreground entry; and
`max_jid` is the maximum key of the map (absent iff the map is empty,
by the lemmas about `keysMax`). -/
def Inv (d : JobData) : Prop :=
  (d.jobs.map Prod.fst).Nodup ∧
  (∀ p ∈ d.jobs, p.2.state ≠ State.FG ∨ d.fg_job = some p.1) ∧
  (∀ k ∈ d.fg_job.toList, ∃ p ∈ d.jobs, p.1 = k ∧ p.2.state = State.FG) ∧
  d.max_jid = keysMax d.jobs

instance (d : JobData) : Decidable (Inv d) := by
  unfold Inv
  infer_instance

theorem hmGet_eq_none_iff (m : List (Nat × Job)) (k : Nat) :
    hmGet m k = none ↔ k ∉ m.map Prod.fst := by
  induction m with
  | nil => simp [hmGet]
  | cons p rest ih =>
    obtain ⟨a, v⟩ := p
    by_cases h : a = k
    · subst h
      simp [hmGet]
    · simp [hmGet, h, ih, Ne.symm h]

theorem hmGet_mem (m : List (Nat × Job)) (k : Nat) (v : Job)
    (h : hmGet m k = some v) : (k, v) ∈ m := by
  induction m with
  | nil => simp [hmGet] at h
  | cons p rest ih =>
    obtain ⟨a, w⟩ := p
    by_cases ha : a = k
    · subst ha
      simp [hmGet] at h
      simp [h]
    · simp [hmGet, ha] at h
      simp [ih h]

theorem hmGet_isSome_iff (m : List (Nat × Job)) (k : Nat) :
    (hmGet m k).isSome ↔ k ∈ m.map Prod.fst := by
  cases h : hmGet m k with
  | none => simp [(hmGet_eq_none_iff m k).mp h]
  | some v =>
    simp only [Option.isSome_some, true_iff]
    exact List.mem_map.mpr ⟨(k, v), hmGet_mem m k v h, rfl⟩

theorem mem_hmGet (m : List (Nat × Job)) (k : Nat) (v : Job)
    (hnd : (m.map Prod.fst).Nodup) (h : (k, v) ∈ m) : hmGet m k = some v := by
  induction m with
  | nil => simp at h
  | cons p rest ih =>
    obtain ⟨a, w⟩ := p
    simp only [List.map_cons, List.nodup_cons] at hnd
    rcases List.mem_cons.mp h with h1 | h1
    · obtain ⟨rfl, rfl⟩ := Prod.mk.injEq .. ▸ (Prod.ext_iff.mp h1)
      simp [hmGet]
    · have hak : a ≠ k := by
        rintro rfl
        exact hnd.1 (List.mem_map.mpr ⟨(a, v), h1, rfl⟩)
      simp [hmGet, hak, ih hnd.2 h1]

theorem hmRemoveKey_of_not_mem (m : List (Nat × Job)) (k : Nat)
    (h : k ∉ m.map Prod.fst) : hmRemoveKey m k = m := by
  induction m with
  | nil => rfl
  | cons p rest ih =>
    obtain ⟨a, v⟩ := p
    simp only [List.map_cons, List.mem_cons, not_or] at h
    have hak : a ≠ k := fun hh => h.1 hh.symm
    simp [hmRemoveKey, hak, ih h.2]

theorem hmRemoveKey_sublist (m : List (Nat × Job)) (k : Nat) :
    (hmRemoveKey m k).Sublist m := by
  induction m with
  | nil => simp [hmRemoveKey]
  | cons p rest ih =>
    obtain ⟨a, v⟩ := p
    by_cases h : a = k
    · simp [hmRemoveKey, h]
    · simpa [hmRemoveKey, h] using ih.cons₂ (a, v)

theorem nodup_keys_hmRemoveKey (m : List (Nat × Job)) (k : Nat)
    (h : (m.map Prod.fst).Nodup) : ((hmRemoveKey m k).map Prod.fst).Nodup :=
  ((hmRemoveKey_sublist m k).map Prod.fst).nodup h

theorem hmGet_hmRemoveKey_self (m : List (Nat × Job)) (k : Nat)
    (hnd : (m.map Prod.fst).Nodup) : hmGet (hmRemoveKey m k) k = none := by
  induction m with
  | nil => rfl
  | cons p rest ih =>
    obtain ⟨a, v⟩ := p
    simp only [List.map_cons, List.nodup_cons] at hnd
    by_cases h : a = k
    · subst h
      have : a ∉ (rest.map Prod.fst) := hnd.1
      simp [hmRemoveKey, (hmGet_eq_none_iff rest a).mpr this]
    · simp [hmRemoveKey, h, hmGet, ih hnd.2]

theorem hmGet_hmRemoveKey_ne (m : List (Nat × Job)) (k j : Nat) (h : j ≠ k) :
    hmGet (hmRemoveKey m k) j = hmGet m j := by
  induction m with
  | nil => rfl
  | cons p rest ih =>
    obtain ⟨a, v⟩ := p
    by_cases ha : a = k
    · subst ha
      simp [hmRemoveKey, hmGet, fun hh : a = j => h (hh ▸ rfl), Ne.symm h]
    · by_cases haj : a = j
      · subst haj
        simp [hmRemoveKey, ha, hmGet]
      · simp [hmRemoveKey, ha, hmGet, haj, ih]

theorem mem_hmRemoveKey_of_ne (m : List (Nat × Job)) (k : Nat) (p : Nat × Job)
    (hp : p ∈ m) (hne : p.1 ≠ k) : p ∈ hmRemoveKey m k := by
  induction m with
  | nil => simp at hp
  | cons q rest ih =>
    obtain ⟨a, v⟩ := q
    rcases List.mem_cons.mp hp with h1 | h1
    · subst h1
      simp [hmRemoveKey, hne]
    · by_cases ha : a = k
      · simpa [hmRemoveKey, ha] using h1
      · simp [hmRemoveKey, ha, ih h1]

theorem keysMax_eq_none_iff (m : List (Nat × Job)) :
    keysMax m = none ↔ m = [] := by
  cases m with
  | nil => simp [keysMax]
  | cons p rest =>
    obtain ⟨a, v⟩ := p
    constructor
    · intro h
      exfalso
      cases hrest : keysMax rest with
      | none => simp [keysMax, hrest] at h
      | some x => simp [keysMax, hrest] at h
    · intro h
      simp at h

theorem le_keysMax (m : List (Nat × Job)) (x : Nat) (hm : keysMax m = some x) :
    ∀ k ∈ m.map Prod.fst, k ≤ x := by
  induction m generalizing x with
  | nil => simp
  | cons p rest ih =>
    obtain ⟨a, v⟩ := p
    intro k hk
    simp only [List.map_cons, List.mem_cons] at hk
    cases hrest : keysMax rest with
    | none =>
      rw [keysMax_eq_none_iff] at hrest
      subst hrest
      simp [keysMax] at hm
      rcases hk with h1 | h1
      · omega
      · simp at h1
    | some y =>
      simp [keysMax, hrest] at hm
      rcases hk with h1 | h1
      · omega
      · have := ih y hrest k h1
        omega

theorem keysMax_mem (m : List (Nat × Job)) (x : Nat) (hm : keysMax m = some x) :
    x ∈ m.map Prod.fst := by
  induction m generalizing x with
  | nil => simp [keysMax] at hm
  | cons p rest ih =>
    obtain ⟨a, v⟩ := p
    simp only [List.map_cons, List.mem_cons]
    cases hrest : keysMax rest with
    | none =>
      simp [keysMax, hrest] at hm
      exact Or.inl hm.symm
    | some y =>
      simp [keysMax, hrest] at hm
      rcases Nat.le_total a y with hle | hle
      · have hxy : x = y := by omega
        exact Or.inr (hxy ▸ ih y hrest)
      · exact Or.inl (by omega)

theorem keysMax_eq_some_iff (m : List (Nat × Job)) (x : Nat)
    (hnd : (m.map Prod.fst).Nodup) :
    keysMax m = some x ↔ x ∈ m.map Prod.fst ∧ ∀ k ∈ m.map Prod.fst, k ≤ x := by
  constructor
  · intro h
    exact ⟨keysMax_mem m x h, le_keysMax m x h⟩
  · rintro ⟨hmem, hle⟩
    cases hk : keysMax m with
    | none =>
      rw [keysMax_eq_none_iff] at hk
      subst hk
      simp at hmem
    | some y =>
      have h1 := le_keysMax m y hk x hmem
      have h2 := hle y (keysMax_mem m y hk)
      have : x = y := Nat.le_antisymm h1 h2
      simp [this]

theorem add_conflict (d : JobData) (pid : Nat) (cmd : String)
    (h : d.fg_job.isSome) :
    JobList.add d pid State.FG cmd = (Except.error fgConflictMsg, d) := by
  simp [JobList.add, h]

/-- The table contents after a successful `add`: under unique keys with a
fresh new id, the hash-map insertion is a plain cons. -/
def addedState (d : JobData) (pid : Nat) (st : State) (cmdline : String) : JobData :=
  { jobs := (nextJid d, { pid := pid, state := st, cmdline := cmdline }) :: d.jobs,
    fg_job := if st = State.FG then some (nextJid d) else d.fg_job,
    max_jid := some (nextJid d) }

theorem add_ok (d : JobData) (pid : Nat) (st : State) (cmd : String)
    (hfresh : hmGet d.jobs (nextJid d) = none)
    (hok : ¬(st = State.FG ∧ d.fg_job.isSome)) :
    JobList.add d pid st cmd = (Except.ok (nextJid d), addedState d pid st cmd) := by
  have hmem : nextJid d ∉ d.jobs.map Prod.fst := (hmGet_eq_none_iff _ _).mp hfresh
  have hrm : hmRemoveKey d.jobs (nextJid d) = d.jobs := hmRemoveKey_of_not_mem _ _ hmem
  by_cases hst : st = State.FG
  · subst hst
    have hfg : ¬d.fg_job.isSome := fun hs => hok ⟨rfl, hs⟩
    rw [Option.not_isSome_iff_eq_none] at hfg
    simp [JobList.add, addedState, hfg, hfresh, hrm, hmInsert]
  · simp [JobList.add, addedState, hst, hfresh, hrm, hmInsert]

theorem inv_fresh (d : JobData) (h : Inv d) : hmGet d.jobs (nextJid d) = none := by
  obtain ⟨hnd, hfgA, hfgB, hmax⟩ := h
  rw [hmGet_eq_none_iff]
  cases hmj : d.max_jid with
  | none =>
    rw [hmj] at hmax
    have hje : d.jobs = [] := (keysMax_eq_none_iff _).mp hmax.symm
    simp [hje]
  | some id =>
    rw [hmj] at hmax
    have hjid : nextJid d = id + 1 := by simp [nextJid, hmj]
    rw [hjid]
    intro hmem
    have := le_keysMax d.jobs id hmax.symm _ hmem
    omega

theorem inv_add (d : JobData) (pid : Nat) (st : State) (cmd : String) (h : Inv d) :
    Inv (JobList.add d pid st cmd).2 := by
  by_cases hc : st = State.FG ∧ d.fg_job.isSome
  · obtain ⟨h1, h2⟩ := hc
    subst h1
    rw [add_conflict d pid cmd h2]
    exact h
  · rw [add_ok d pid st cmd (inv_fresh d h) hc]
    obtain ⟨hnd, hfgA, hfgB, hmax⟩ := h
    have hmemJ : nextJid d ∉ d.jobs.map Prod.fst :=
      (hmGet_eq_none_iff _ _).mp (inv_fresh d ⟨hnd, hfgA, hfgB, hmax⟩)
    refine ⟨?_, ?_, ?_, ?_⟩
    · simp only [addedState, List.map_cons]
      exact List.nodup_cons.mpr ⟨hmemJ, hnd⟩
    · intro p hp
      simp only [addedState, List.mem_cons] at hp
      rcases hp with hp | hp
      · subst hp
        by_cases hst : st = State.FG
        · exact Or.inr (by simp [addedState, hst])
        · exact Or.inl (by simpa [addedState] using hst)
      · by_cases hst : st = State.FG
        · have hfg : d.fg_job = none := by
            rcases hfg : d.fg_job with _ | f
            · rfl
            · exact absurd ⟨hst, by simp [hfg]⟩ hc
          rcases hfgA p hp with h1 | h1
          · exact Or.inl h1
          · rw [hfg] at h1
            exact absurd h1 (by simp)
        · rcases hfgA p hp with h1 | h1
          · exact Or.inl h1
          · exact Or.inr (by simpa [addedState, hst] using h1)
    · intro k hk
      by_cases hst : st = State.FG
      · subst hst
        have hkj : k = nextJid d := by
          simp [addedState] at hk
          exact hk
        subst hkj
        exact ⟨(nextJid d, { pid := pid, state := State.FG, cmdline := cmd }),
          by simp [addedState], rfl, rfl⟩
      · have hk2 : k ∈ d.fg_job.toList := by
          simpa [addedState, hst] using hk
        obtain ⟨p, hp, hpk, hpfg⟩ := hfgB k hk2
        exact ⟨p, by simp [addedState, hp], hpk, hpfg⟩
    · show some (nextJid d) = keysMax (addedState d pid st cmd).jobs
      simp only [addedState]
      cases hmj : d.max_jid with
      | none =>
        rw [hmj] at hmax
        rw [keysMax, ← hmax]
      | some id =>
        rw [hmj] at hmax
        rw [keysMax, ← hmax]
        simp only [nextJid, hmj]
        have : max (id + 1) id = id + 1 := by omega
        simp [this]

/-- The table contents after `delete` removes a present entry. -/
def deletedState (d : JobData) (jid : Nat) : JobData :=
  { jobs := hmRemoveKey d.jobs jid,
    fg_job := if d.fg_job = some jid then none else d.fg_job,
    max_jid := if d.max_jid = some jid then keysMax (hmRemoveKey d.jobs jid) else d.max_jid }

theorem delete_present (d : JobData) (jid : Nat) (v : Job)
    (hget : hmGet d.jobs jid = some v) :
    JobList.delete d jid = (true, deletedState d jid) := by
  unfold JobList.delete deletedState
  rw [hget]
  cases hmj : d.max_jid with
  | none =>
    cases hfj : d.fg_job with
    | none => simp [hmj, hfj]
    | some f =>
      by_cases hf : f = jid
      · subst hf
        simp [hmj, hfj]
      · simp [hmj, hfj, hf, fun hh : some f = some jid => hf (Option.some.inj hh)]
  | some id =>
    by_cases hid : jid = id
    · subst hid
      cases hfj : d.fg_job with
      | none => simp [hmj, hfj]
      | some f =>
        by_cases hf : f = jid
        · subst hf
          simp [hmj, hfj]
        · simp [hmj, hfj, hf, fun hh : some f = some jid => hf (Option.some.inj hh)]
    · have hne : ¬(some id = some jid) := fun hh => hid (Option.some.inj hh).symm
      cases hfj : d.fg_job with
      | none => simp [hmj, hfj, hid, hne]
      | some f =>
        by_cases hf : f = jid
        · subst hf
          simp [hmj, hfj, hid, hne]
        · simp [hmj, hfj, hid, hne, hf, fun hh : some f = some jid => hf (Option.some.inj hh)]

theorem delete_absent (d : JobData) (jid : Nat) (h : Inv d)
    (habs : hmGet d.jobs jid = none) : JobList.delete d jid = (false, d) := by
  obtain ⟨hnd, hfgA, hfgB, hmax⟩ := h
  have hmem : jid ∉ d.jobs.map Prod.fst := (hmGet_eq_none_iff _ _).mp habs
  have hrm : hmRemoveKey d.jobs jid = d.jobs := hmRemoveKey_of_not_mem _ _ hmem
  unfold JobList.delete
  rw [habs, hrm]
  have hd1 : { d with jobs := d.jobs } = d := rfl
  rw [hd1]
  cases hmj : d.max_jid with
  | none =>
    cases hfj : d.fg_job with
    | none => simp [hmj, hfj]
    | some f =>
      have hf : f ≠ jid := by
        intro hh
        subst hh
        obtain ⟨p, hp, hpk, _⟩ := hfgB f (by simp [hfj])
        exact hmem (hpk ▸ List.mem_map.mpr ⟨p, hp, rfl⟩)
      simp [hmj, hfj, hf]
  | some id =>
    have hid : jid ≠ id := by
      intro hh
      subst hh
      rw [hmj] at hmax
      exact hmem (keysMax_mem d.jobs jid hmax.symm)
    cases hfj : d.fg_job with
    | none => simp [hmj, hfj, hid]
    | some f =>
      have hf : f ≠ jid := by
        intro hh
        subst hh
        obtain ⟨p, hp, hpk, _⟩ := hfgB f (by simp [hfj])
        exact hmem (hpk ▸ List.mem_map.mpr ⟨p, hp, rfl⟩)
      simp [hmj, hfj, hid, hf]

theorem inv_delete (d : JobData) (jid : Nat) (h : Inv d) :
    Inv (JobList.delete d jid).2 := by
  cases hget : hmGet d.jobs jid with
  | none =>
    rw [delete_absent d jid h hget]
    exact h
  | some v =>
    rw [delete_present d jid v hget]
    obtain ⟨hnd, hfgA, hfgB, hmax⟩ := h
    refine ⟨nodup_keys_hmRemoveKey _ _ hnd, ?_, ?_, ?_⟩
    · intro p hp
      have hpm : p ∈ d.jobs := (hmRemoveKey_sublist d.jobs jid).subset hp
      have hpj : p.1 ≠ jid := by
        intro hh
        have hk : p.1 ∈ (hmRemoveKey d.jobs jid).map Prod.fst :=
          List.mem_map.mpr ⟨p, hp, rfl⟩
        rw [hh] at hk
        have hcontra := (hmGet_isSome_iff _ _).mpr hk
        rw [hmGet_hmRemoveKey_self d.jobs jid hnd] at hcontra
        simp at hcontra
      rcases hfgA p hpm with h1 | h1
      · exact Or.inl h1
      · have hfj : ¬d.fg_job = some jid := by
          rw [h1]
          simp [hpj]
        exact Or.inr (by simp [deletedState, hfj, h1, hpj])
    · intro k hk
      by_cases hfj : d.fg_job = some jid
      · simp [deletedState, hfj] at hk
      · simp only [deletedState, if_neg hfj] at hk
        obtain ⟨p, hp, hpk, hpfg⟩ := hfgB k hk
        have hkj : k ≠ jid := by
          intro hh
          apply hfj
          subst hh
          simp only [Option.mem_toList, Option.mem_def] at hk
          exact hk
        exact ⟨p, mem_hmRemoveKey_of_ne d.jobs jid p hp (hpk ▸ hkj), hpk, hpfg⟩
    · show (deletedState d jid).max_jid = keysMax (hmRemoveKey d.jobs jid)
      by_cases hmj : d.max_jid = some jid
      · simp [deletedState, hmj]
      · simp only [deletedState, if_neg hmj]
        cases hmx : d.max_jid with
        | none =>
          rw [hmx] at hmax
          have hje : d.jobs = [] := (keysMax_eq_none_iff _).mp hmax.symm
          simp [hje, hmRemoveKey, keysMax]
        | some m =>
          rw [hmx] at hmax
          have hmne : m ≠ jid := fun hh => hmj (hmx.trans (by rw [hh]))
          symm
          rw [keysMax_eq_some_iff _ _ (nodup_keys_hmRemoveKey _ _ hnd)]
          constructor
          · have hmm : m ∈ d.jobs.map Prod.fst := keysMax_mem d.jobs m hmax.symm
            obtain ⟨p, hp, hpk⟩ := List.mem_map.mp hmm
            exact hpk ▸ List.mem_map.mpr
              ⟨p, mem_hmRemoveKey_of_ne d.jobs jid p hp (hpk.symm ▸ hmne), rfl⟩
          · intro k hkm
            have hsub := (hmRemoveKey_sublist d.jobs jid).map Prod.fst
            exact le_keysMax d.jobs m hmax.symm k (hsub.subset hkm)

theorem inv_new : Inv JobList.new := by decide

theorem reachable_inv (d : JobData) (h : Reachable d) : Inv d := by
  induction h with
  | init => exact inv_new
  | step_add d pid st cmd _ ih => exact inv_add d pid st cmd ih
  | step_delete d jid _ ih => exact inv_delete d jid ih

/-- Observable effects of the launcher after a successful spawn: messages
printed to stderr, killing the child, waiting on the child, and detaching
the background monitor task (recorded as one action, with the job id, pid
and displayed command line it captures). -/
inductive Action where
  | eprintMsg : String → Action
  | killChild : Action
  | waitChild : Action
  | spawnMonitor : Nat → Nat → String → Action
deriving DecidableEq

/-- The tail of `Executable::run_command` from `src/lib.rs` that runs once
the child process has been spawned with process id `pid`: register the job;
on success either wait for a foreground child and delete its job (reporting
a failed removal), or detach the background monitor task; on a failed
registration print the error, kill the child and wait for its exit. The
result pairs the emitted actions, in program order, with the job table
contents when the function returns. -/
def run_command_after_spawn (d : JobData) (pid : Nat) (st : State) (cmdline : String) :
    List Action × JobData :=
  match JobList.add d pid st cmdline with
  | (Except.ok jid, d1) =>
    match st with
    | State.FG =>
      let r := JobList.delete d1 jid
      (Action.waitChild :: (if r.1 then [] else [Action.eprintMsg "Failed to remove job"]), r.2)
    | State.BG =>
      let c := (JobList.get_cmdline d1 jid).getD ""
      ([Action.spawnMonitor jid pid c], d1)
  | (Except.error e, d1) =>
    ([Action.eprintMsg e, Action.killChild, Action.waitChild], d1)

end Shell

/-- Split a character list into newline-terminated lines: each newline ends
the line before it, and a final line without a terminating newline is still
reported. A text in which every entry ends with a newline therefore splits
into exactly those entries. -/
def splitLines : List Char → List (List Char)
  | [] => []
  | c :: rest =>
    if c = newlineChar then [] :: splitLines rest
    else
      match splitLines rest with
      | [] => [[c]]
      | l :: ls => (c :: l) :: ls

theorem splitLines_append_newline (line rest : List Char)
    (h : newlineChar ∉ line) :
    splitLines (line ++ newlineChar :: rest) = line :: splitLines rest := by
  induction line with
  | nil => simp [splitLines]
  | cons c cs ih =>
    simp only [List.mem_cons, not_or] at h
    have hc : ¬c = newlineChar := fun hh => h.1 hh.symm
    rw [List.cons_append, splitLines]
    rw [if_neg hc, ih h.2]

theorem digitChar_ne_newline (n : Nat) : digitChar n ≠ newlineChar := by
  unfold digitChar
  repeat' split
  all_goals decide

theorem natReprAux_ne_newline (fuel n : Nat) (acc : List Char)
    (hacc : newlineChar ∉ acc) : newlineChar ∉ natReprAux fuel n acc := by
  induction fuel generalizing n acc with
  | zero => simpa [natReprAux] using hacc
  | succ fuel ih =>
    rw [natReprAux]
    split
    · simp only [List.mem_cons, not_or]
      exact ⟨fun hh => digitChar_ne_newline n hh.symm, hacc⟩
    · apply ih
      simp only [List.mem_cons, not_or]
      exact ⟨fun hh => digitChar_ne_newline (n % 10) hh.symm, hacc⟩

theorem natRepr_ne_newline (n : Nat) : newlineChar ∉ (natRepr n).data := by
  unfold natRepr
  exact natReprAux_ne_newline (n + 1) n [] (by simp)

namespace Root

/-- `MAXJOBS` from `src/job_list.rs`. -/
def MAXJOBS : Nat := 64

/-- Job state of `src/job_list.rs`: background, foreground, the stop marker
`ST`, and the empty-slot marker `NT`. -/
inductive State where
  | BG : State
  | FG : State
  | ST : State
  | NT : State
deriving DecidableEq

/-- One array slot: pid, state and command line (the borrowed `&str` is
embedded as a string value). -/
structure Job where
  pid : Nat
  state : State
  cmdline : String
deriving DecidableEq

/-- The empty-slot value `JobList::new` fills the array with. -/
def emptyJob : Job := { pid := 0, state := State.NT, cmdline := "" }

/-- The contents of the array-based `JobData`: the fixed `[Job; MAXJOBS]`
array is embedded as a list created with length `MAXJOBS`, plus the
foreground job id and the current maximum job id. -/
structure JobData where
  jobs : List Job
  fg_job : Option Nat
  max_jid : Option Nat
deriving DecidableEq

/-- Reading `jobs[jid]` by direct index; every index the source uses this
way is bounds-checked or freshly allocated below `MAXJOBS`, so the default
is never observed on states the program builds. -/
def arrGet (l : List Job) (i : Nat) : Job := l.getD i emptyJob

/-- `JobList::new` from `src/job_list.rs`. -/
def JobList.new : JobData :=
  { jobs := List.replicate MAXJOBS emptyJob, fg_job := none, max_jid := none }

/-- `JobList::get`: bounds-checked slot read that hides empty slots. -/
def JobList.get (d : JobData) (jid : Nat) : Option Job :=
  match d.jobs.get? jid with
  | none => none
  | some j => if j.state = State.NT then none else some j

/-- The part of `JobList::add` that runs after the new job id has been
computed: foreground bookkeeping, watermark update, the overwrite check on
the slot, and the slot write. -/
def addCont (d : JobData) (pid : Nat) (st : State) (cmdline : String) (jid : Nat) :
    Except String Nat × JobData :=
  if st = State.FG ∧ d.fg_job.isSome then (Except.error fgConflictMsg, d)
  else
    let d1 := if st = State.FG then { d with fg_job := some jid } else d
    let d2 := { d1 with max_jid := some jid }
    if (arrGet d2.jobs jid).state ≠ State.NT then
      (Except.error "Inserted job with duplicate jid", d2)
    else
      (Except.ok jid, { d2 with jobs := d2.jobs.set jid { pid := pid, state := st, cmdline := cmdline } })

/-- `JobList::add` from `src/job_list.rs`: rejects `NT`, enforces the
`MAXJOBS` capacity when computing the next id, then continues as `addCont`. -/
def JobList.add (d : JobData) (pid : Nat) (st : State) (cmdline : String) :
    Except String Nat × JobData :=
  if st = State.NT then (Except.error "Invalid state for new job", d)
  else
    match d.max_jid with
    | some id =>
      if id + 1 ≥ MAXJOBS then (Except.error "Too many jobs", d)
      else addCont d pid st cmdline (id + 1)
    | none => addCont d pid st cmdline 0

/-- The index of the last non-empty slot, or `none`:
`jobs.iter().rposition(|job| job.state != State::NT)` from
`JobList::delete`. -/
def rpositionActive : List Job → Option Nat
  | [] => none
  | j :: rest =>
    match rpositionActive rest with
    | some i => some (i + 1)
    | none => if j.state ≠ State.NT then some 0 else none

/-- `JobList::delete` from `src/job_list.rs`: bounds check, double-remove
check, slot clearing, watermark recomputation and foreground clearing. -/
def JobList.delete (d : JobData) (jid : Nat) : Bool × JobData :=
  if jid ≥ MAXJOBS then (false, d)
  else if (arrGet d.jobs jid).state = State.NT then (false, d)
  else
    let d1 := { d with jobs := d.jobs.set jid { arrGet d.jobs jid with state := State.NT } }
    let d2 :=
      match d1.max_jid with
      | some id => if jid = id then { d1 with max_jid := rpositionActive d1.jobs } else d1
      | none => d1
    let d3 :=
      match d2.fg_job with
      | some id => if id = jid then { d2 with fg_job := none } else d2
      | none => d2
    (true, d3)

/-- The tail of `JobList::set_state` that runs once the foreground rule
has been settled: if the state changes, clear `fg_job` when the job was
the foreground job and overwrite the slot state; otherwise do nothing. -/
def setStateUpd (d1 : JobData) (jid : Nat) (st : State) : Bool × JobData :=
  let job := arrGet d1.jobs jid
  if st ≠ job.state then
    let d2 := if job.state = State.FG then { d1 with fg_job := none } else d1
    (true, { d2 with jobs := d2.jobs.set jid { job with state := st } })
  else (true, d1)

/-- `JobList::set_state` from `src/job_list.rs`: validity checks, the
foreground-exclusivity rule (requesting `FG` while a foreground job exists
only reports whether it is this very job), and the state overwrite with
foreground bookkeeping, as `setStateUpd`. -/
def JobList.set_state (d : JobData) (jid : Nat) (st : State) : Bool × JobData :=
  if jid ≥ MAXJOBS ∨ (arrGet d.jobs jid).state = State.NT then (false, d)
  else if st = State.FG then
    match d.fg_job with
    | some x => (jid == x, d)
    | none => setStateUpd { d with fg_job := some jid } jid st
  else setStateUpd d jid st

/-- `JobList::get_state`. -/
def JobList.get_state (d : JobData) (jid : Nat) : Option State :=
  (JobList.get d jid).map Job.state

/-- `JobList::get_pid`. -/
def JobList.get_pid (d : JobData) (jid : Nat) : Option Nat :=
  (JobList.get d jid).map Job.pid

/-- `JobList::get_cmdline`. -/
def JobList.get_cmdline (d : JobData) (jid : Nat) : Option String :=
  (JobList.get d jid).map Job.cmdline

/-- Table states reachable from the empty table through the mutating public
operations of `src/job_list.rs` (`add`, `delete`, `set_state`) with
arbitrary arguments; the other public operations take `&self` and never
change the contents. -/
inductive Reachable : JobData → Prop where
  | init : Reachable JobList.new
  | step_add : ∀ d pid st cmd, Reachable d → Reachable (JobList.add d pid st cmd).2
  | step_delete : ∀ d jid, Reachable d → Reachable (JobList.delete d jid).2
  | step_set : ∀ d jid st, Reachable d → Reachable (JobList.set_state d jid st).2

/-- Table states reachable when every state argument a caller passes is
`FG` or `BG` — exactly the states the shell itself can drive the table
into, since its dispatcher only ever derives those two states. -/
inductive CleanReachable : JobData → Prop where
  | init : CleanReachable JobList.new
  | step_add : ∀ d pid st cmd, st = State.FG ∨ st = State.BG → CleanReachable d →
      CleanReachable (JobList.add d pid st cmd).2
  | step_delete : ∀ d jid, CleanReachable d → CleanReachable (JobList.delete d jid).2
  | step_set : ∀ d jid st, st = State.FG ∨ st = State.BG → CleanReachable d →
      CleanReachable (JobList.set_state d jid st).2

end Root

namespace Shell

/-- Invariant I1 as the specification states it: at most one entry is in
the foreground state, and `fg_job`, when present, names exactly that
entry. -/
def SpecI1 (d : JobData) : Prop :=
  (∀ k1 k2 j1 j2, hmGet d.jobs k1 = some j1 → j1.state = State.FG →
      hmGet d.jobs k2 = some j2 → j2.state = State.FG → k1 = k2) ∧
  (∀ k j, hmGet d.jobs k = some j → j.state = State.FG → d.fg_job = some k) ∧
  (∀ k, d.fg_job = some k → ∃ j, hmGet d.jobs k = some j ∧ j.state = State.FG)

/-- Invariant I3 as the specification states it: `max_jid` is absent iff
the table is empty, and otherwise is a present key that bounds every
present key. -/
def SpecI3 (d : JobData) : Prop :=
  (d.max_jid = none ↔ d.jobs = []) ∧
  (∀ m, d.max_jid = some m →
    (hmGet d.jobs m).isSome ∧ ∀ k, (hmGet d.jobs k).isSome → k ≤ m)

theorem inv_specI1 (d : JobData) (h : Inv d) : SpecI1 d := by
  obtain ⟨hnd, hfgA, hfgB, hmax⟩ := h
  refine ⟨?_, ?_, ?_⟩
  · intro k1 k2 j1 j2 h1 hfg1 h2 hfg2
    rcases hfgA _ (hmGet_mem _ _ _ h1) with ha | ha
    · exact absurd hfg1 ha
    · rcases hfgA _ (hmGet_mem _ _ _ h2) with hb | hb
      · exact absurd hfg2 hb
      · exact Option.some.inj (ha.symm.trans hb)
  · intro k j h hfg
    rcases hfgA _ (hmGet_mem _ _ _ h) with ha | ha
    · exact absurd hfg ha
    · exact ha
  · intro k hk
    obtain ⟨p, hp, hpk, hpfg⟩ := hfgB k (by simp [hk])
    obtain ⟨k0, j0⟩ := p
    subst hpk
    exact ⟨j0, mem_hmGet _ _ _ hnd hp, hpfg⟩

theorem inv_specI3 (d : JobData) (h : Inv d) : SpecI3 d := by
  obtain ⟨hnd, hfgA, hfgB, hmax⟩ := h
  constructor
  · rw [hmax]
    exact keysMax_eq_none_iff d.jobs
  · intro m hm
    rw [hmax] at hm
    refine ⟨(hmGet_isSome_iff _ _).mpr (keysMax_mem _ _ hm), ?_⟩
    intro k hks
    exact le_keysMax _ _ hm k ((hmGet_isSome_iff _ _).mp hks)

/-- A reachable table holding one foreground job, used as the concrete
input of several witnesses. -/
def oneFgTable : JobData :=
  { jobs := [(0, { pid := 1, state := State.FG, cmdline := "one" })],
    fg_job := some 0, max_jid := some 0 }

theorem oneFgTable_reachable : Reachable oneFgTable :=
  Reachable.step_add JobList.new 1 State.FG "one" Reachable.init

/-- C1: in every reachable table that already contains a foreground job,
adding another foreground job fails with the foreground-conflict error
message and returns the table completely unchanged — every entry, the
`fg_job` field and the `max_jid` watermark are as before, so no job id is
consumed. -/
theorem C1_foreground_conflict_no_mutation (d : JobData) (pid : Nat) (cmd : String)
    (hR : Reachable d) (hfg : ∃ p ∈ d.jobs, p.2.state = State.FG) :
    JobList.add d pid State.FG cmd = (Except.error fgConflictMsg, d) := by
  obtain ⟨hnd, hfgA, hfgB, hmax⟩ := reachable_inv d hR
  obtain ⟨p, hp, hpfg⟩ := hfg
  rcases hfgA p hp with h1 | h1
  · exact absurd hpfg h1
  · exact add_conflict d pid cmd (by simp [h1])

theorem C1_witness :
    (Reachable oneFgTable ∧ ∃ p ∈ oneFgTable.jobs, p.2.state = State.FG) ∧
    JobList.add oneFgTable 7 State.FG "two" = (Except.error fgConflictMsg, oneFgTable) := by
  have hfg : ∃ p ∈ oneFgTable.jobs, p.2.state = State.FG :=
    ⟨(0, { pid := 1, state := State.FG, cmdline := "one" }), by simp [oneFgTable], rfl⟩
  exact ⟨⟨oneFgTable_reachable, hfg⟩,
    C1_foreground_conflict_no_mutation oneFgTable 7 "two" oneFgTable_reachable hfg⟩

/-- C2: every table state reachable from the empty table by `add` and
`delete` satisfies invariant I1 (at most one foreground entry, named by
`fg_job`) and invariant I3 (`max_jid` is the maximum present key, absent
iff the table is empty). -/
theorem C2_invariants_I1_I3 (d : JobData) (hR : Reachable d) : SpecI1 d ∧ SpecI3 d :=
  ⟨inv_specI1 d (reachable_inv d hR), inv_specI3 d (reachable_inv d hR)⟩

theorem C2_witness :
    Reachable oneFgTable ∧ SpecI1 oneFgTable ∧ SpecI3 oneFgTable :=
  ⟨oneFgTable_reachable,
    (C2_invariants_I1_I3 oneFgTable oneFgTable_reachable).1,
    (C2_invariants_I1_I3 oneFgTable oneFgTable_reachable).2⟩

theorem add_eval (d : JobData) (pid : Nat) (st : State) (cmd : String)
    (hok : ¬(st = State.FG ∧ d.fg_job.isSome)) :
    JobList.add d pid st cmd =
      (if (hmGet d.jobs (nextJid d)).isSome
         then Except.error "Inserted job with duplicate jid"
         else Except.ok (nextJid d),
       { jobs := hmInsert d.jobs (nextJid d) { pid := pid, state := st, cmdline := cmd },
         fg_job := if st = State.FG then some (nextJid d) else d.fg_job,
         max_jid := some (nextJid d) }) := by
  rw [JobList.add]
  rw [if_neg hok]
  by_cases hst : st = State.FG
  · by_cases hdup : (hmGet d.jobs (nextJid d)).isSome
    · simp [hst, hdup]
    · simp [hst, hdup]
  · by_cases hdup : (hmGet d.jobs (nextJid d)).isSome
    · simp [hst, hdup]
    · simp [hst, hdup]

theorem add_eq_ok (d : JobData) (pid : Nat) (st : State) (cmd : String)
    (jid : Nat) (d2 : JobData)
    (h : JobList.add d pid st cmd = (Except.ok jid, d2)) :
    jid = nextJid d ∧
    d2 = { jobs := hmInsert d.jobs (nextJid d) { pid := pid, state := st, cmdline := cmd },
           fg_job := if st = State.FG then some (nextJid d) else d.fg_job,
           max_jid := some (nextJid d) } := by
  by_cases hok : st = State.FG ∧ d.fg_job.isSome
  · obtain ⟨h1, h2⟩ := hok
    subst h1
    rw [add_conflict d pid cmd h2] at h
    have hcontra := congrArg Prod.fst h
    simp at hcontra
  · rw [add_eval d pid st cmd hok] at h
    obtain ⟨h1, h2⟩ := Prod.ext_iff.mp h
    by_cases hdup : (hmGet d.jobs (nextJid d)).isSome
    · rw [if_pos hdup] at h1
      simp at h1
    · rw [if_neg hdup] at h1
      exact ⟨(Except.ok.inj h1).symm, h2.symm⟩

/-- C3: every successful `add` allocates the id `max_jid + 1` (`0` for an
empty watermark), stores the new job under that id, moves the watermark to
it, and points `fg_job` at it when the new job is a foreground job; in
particular the first two adds from the empty table return ids 0 and 1. -/
theorem C3_add_allocation (d : JobData) (pid : Nat) (st : State) (cmd : String)
    (jid : Nat) (d2 : JobData)
    (h : JobList.add d pid st cmd = (Except.ok jid, d2)) :
    jid = nextJid d ∧
    hmGet d2.jobs jid = some { pid := pid, state := st, cmdline := cmd } ∧
    d2.max_jid = some jid ∧
    (st = State.FG → d2.fg_job = some jid) ∧
    (JobList.add JobList.new 1 State.FG "one").1 = Except.ok 0 ∧
    (JobList.add (JobList.add JobList.new 1 State.FG "one").2 2 State.BG "two").1 =
      Except.ok 1 := by
  obtain ⟨h1, h2⟩ := add_eq_ok d pid st cmd jid d2 h
  subst h1
  subst h2
  refine ⟨rfl, ?_, rfl, ?_, by decide, by decide⟩
  · simp [hmInsert, hmGet]
  · intro hst
    simp [hst]

theorem C3_witness :
    JobList.add JobList.new 1 State.FG "one" = (Except.ok 0, oneFgTable) ∧
    (0 = nextJid JobList.new ∧
      hmGet oneFgTable.jobs 0 = some { pid := 1, state := State.FG, cmdline := "one" } ∧
      oneFgTable.max_jid = some 0 ∧
      (State.FG = State.FG → oneFgTable.fg_job = some 0) ∧
      (JobList.add JobList.new 1 State.FG "one").1 = Except.ok 0 ∧
      (JobList.add (JobList.add JobList.new 1 State.FG "one").2 2 State.BG "two").1 =
        Except.ok 1) :=
  ⟨by decide, C3_add_allocation JobList.new 1 State.FG "one" 0 oneFgTable (by decide)⟩

end Shell

namespace Shell

/-- A reachable table with background jobs at the contiguous ids 0, 1, 2. -/
def jobs012 : JobData :=
  { jobs := [(2, { pid := 3, state := State.BG, cmdline := "three" }),
             (1, { pid := 2, state := State.BG, cmdline := "two" }),
             (0, { pid := 1, state := State.BG, cmdline := "one" })],
    fg_job := none, max_jid := some 2 }

theorem jobs012_reachable : Reachable jobs012 :=
  Reachable.step_add _ 3 State.BG "three"
    (Reachable.step_add _ 2 State.BG "two"
      (Reachable.step_add _ 1 State.BG "one" Reachable.init))

/-- A reachable table with background jobs at the non-contiguous ids 0 and
2 (the entry at id 1 has been deleted), whose watermark is 2. -/
def gapTable : JobData :=
  { jobs := [(2, { pid := 12, state := State.BG, cmdline := "c" }),
             (0, { pid := 10, state := State.BG, cmdline := "a" })],
    fg_job := none, max_jid := some 2 }

theorem gapTable_reachable : Reachable gapTable :=
  Reachable.step_delete _ 1
    (Reachable.step_add _ 12 State.BG "c"
      (Reachable.step_add _ 11 State.BG "b"
        (Reachable.step_add _ 10 State.BG "a" Reachable.init)))

/-- C4 counterexample: in the reachable table with jobs at ids 0 and 2,
the entry at id 2 holds the current maximum id, yet deleting it and then
performing a successful add yields id 1, not 2 — deleting the maximum does
not in general make the maximum id itself reusable, only the slot above
the remaining maximum. -/
theorem C4_counterexample :
    Reachable gapTable ∧
    gapTable.max_jid = some 2 ∧
    (hmGet gapTable.jobs 2).isSome ∧
    (JobList.delete gapTable 2).1 = true ∧
    (JobList.add (JobList.delete gapTable 2).2 13 State.BG "d").1 = Except.ok 1 ∧
    (1 : Nat) ≠ 2 :=
  ⟨gapTable_reachable, by decide, by decide, by decide, by decide, by decide⟩

/-- C4 (amended): after deleting the entry holding the current maximum id
`m`, a successful add allocates the recomputed watermark plus one — which
equals `m` exactly when the remaining maximum is `m - 1`, as in contiguous
tables — while deleting a present non-maximum id leaves the watermark at
`m`, so a following add yields `m + 1` and the gap at the deleted id stays
unfilled; concretely, with jobs at ids 0, 1, 2, deleting 2 then adding
yields 2 again and deleting 1 then adding yields 3. -/
theorem C4_watermark_reuse_amended (d : JobData) (m jid pid : Nat) (v : Job)
    (cmd : String) (hInv : Inv d) (hm : d.max_jid = some m) :
    (JobList.add (JobList.delete d m).2 pid State.BG cmd).1 =
      Except.ok (nextJid (JobList.delete d m).2) ∧
    (hmGet d.jobs jid = some v → jid ≠ m →
      (JobList.add (JobList.delete d jid).2 pid State.BG cmd).1 = Except.ok (m + 1) ∧
      hmGet ((JobList.add (JobList.delete d jid).2 pid State.BG cmd).2).jobs jid = none) ∧
    (JobList.add (JobList.delete jobs012 2).2 13 State.BG "d").1 = Except.ok 2 ∧
    (JobList.add (JobList.delete jobs012 1).2 13 State.BG "d").1 = Except.ok 3 := by
  refine ⟨?_, ?_, by decide, by decide⟩
  · have hInv2 := inv_delete d m hInv
    rw [add_ok _ pid State.BG cmd (inv_fresh _ hInv2) (by simp)]
  · intro hget hne
    have hInv2 := inv_delete d jid hInv
    have hdel := delete_present d jid v hget
    have hcond : ¬(d.max_jid = some jid) := by
      rw [hm]
      exact fun hh => hne (Option.some.inj hh).symm
    have hmax2 : (JobList.delete d jid).2.max_jid = some m := by
      rw [hdel]
      simp only [deletedState, if_neg hcond]
      exact hm
    have hnext : nextJid (JobList.delete d jid).2 = m + 1 := by
      simp [nextJid, hmax2]
    have hjm : jid ≤ m := by
      have hkm : keysMax d.jobs = some m := hInv.2.2.2.symm.trans hm
      exact le_keysMax d.jobs m hkm jid
        ((hmGet_isSome_iff _ _).mp (by simp [hget]))
    constructor
    · rw [add_ok _ pid State.BG cmd (inv_fresh _ hInv2) (by simp), hnext]
    · rw [add_ok _ pid State.BG cmd (inv_fresh _ hInv2) (by simp)]
      simp only [addedState]
      rw [hnext]
      rw [hmGet]
      have hne2 : ¬(m + 1 = jid) := by omega
      rw [if_neg hne2, hdel]
      simp only [deletedState]
      exact hmGet_hmRemoveKey_self d.jobs jid hInv.1

theorem C4_witness :
    (Inv jobs012 ∧ jobs012.max_jid = some 2) ∧
    ((JobList.add (JobList.delete jobs012 2).2 13 State.BG "d").1 =
        Except.ok (nextJid (JobList.delete jobs012 2).2) ∧
      (hmGet jobs012.jobs 1 = some { pid := 2, state := State.BG, cmdline := "two" } →
        1 ≠ 2 →
        (JobList.add (JobList.delete jobs012 1).2 13 State.BG "d").1 = Except.ok (2 + 1) ∧
        hmGet ((JobList.add (JobList.delete jobs012 1).2 13 State.BG "d").2).jobs 1 = none) ∧
      (JobList.add (JobList.delete jobs012 2).2 13 State.BG "d").1 = Except.ok 2 ∧
      (JobList.add (JobList.delete jobs012 1).2 13 State.BG "d").1 = Except.ok 3) :=
  ⟨⟨by decide, by decide⟩,
    C4_watermark_reuse_amended jobs012 2 1 13
      { pid := 2, state := State.BG, cmdline := "two" } "d" (by decide) (by decide)⟩

/-- C5: on every reachable table, `add` fails exactly when the requested
state is foreground and a foreground entry is already present; the only
error ever returned is the foreground-conflict message, and the slot the
new id would use is always free, so the duplicate-jid branch cannot run. -/
theorem C5_add_failure_characterization (d : JobData) (pid : Nat) (st : State)
    (cmd : String) (hR : Reachable d) :
    ((∃ e, (JobList.add d pid st cmd).1 = Except.error e) ↔
      (st = State.FG ∧ ∃ p ∈ d.jobs, p.2.state = State.FG)) ∧
    (∀ e, (JobList.add d pid st cmd).1 = Except.error e → e = fgConflictMsg) ∧
    hmGet d.jobs (nextJid d) = none := by
  have hInv := reachable_inv d hR
  have hfresh := inv_fresh d hInv
  obtain ⟨hnd, hfgA, hfgB, hmax⟩ := hInv
  by_cases hc : st = State.FG ∧ d.fg_job.isSome
  · obtain ⟨hst, hfg⟩ := hc
    subst hst
    rw [add_conflict d pid cmd hfg]
    refine ⟨?_, ?_, hfresh⟩
    · constructor
      · intro _
        refine ⟨rfl, ?_⟩
        obtain ⟨f, hf⟩ := Option.isSome_iff_exists.mp hfg
        obtain ⟨p, hp, hpk, hpfg⟩ := hfgB f (by simp [hf])
        exact ⟨p, hp, hpfg⟩
      · intro _
        exact ⟨fgConflictMsg, rfl⟩
    · intro e he
      exact (Except.error.inj he).symm
  · rw [add_ok d pid st cmd hfresh hc]
    refine ⟨?_, ?_, hfresh⟩
    · constructor
      · rintro ⟨e, he⟩
        simp at he
      · rintro ⟨hst, p, hp, hpfg⟩
        exfalso
        rcases hfgA p hp with h1 | h1
        · exact h1 hpfg
        · exact hc ⟨hst, by simp [h1]⟩
    · intro e he
      simp at he

theorem C5_witness :
    Reachable oneFgTable ∧
    (((∃ e, (JobList.add oneFgTable 7 State.FG "two").1 = Except.error e) ↔
        (State.FG = State.FG ∧ ∃ p ∈ oneFgTable.jobs, p.2.state = State.FG)) ∧
      (∀ e, (JobList.add oneFgTable 7 State.FG "two").1 = Except.error e →
        e = fgConflictMsg) ∧
      hmGet oneFgTable.jobs (nextJid oneFgTable) = none) :=
  ⟨oneFgTable_reachable,
    C5_add_failure_characterization oneFgTable 7 State.FG "two" oneFgTable_reachable⟩

/-- C6: on every table satisfying the data-model invariants (hence on
every reachable table), `delete` returns true exactly when the id is
present; deleting a present id removes exactly that entry — the three
lookups on it then return absent, every other entry is untouched, and
`fg_job` is cleared when it named the deleted id — while deleting an
absent id returns false and leaves the whole table unchanged. -/
theorem C6_delete_semantics (d : JobData) (jid : Nat) (h : Inv d) :
    ((JobList.delete d jid).1 = true ↔ (hmGet d.jobs jid).isSome) ∧
    (∀ v, hmGet d.jobs jid = some v →
      JobList.get_state (JobList.delete d jid).2 jid = none ∧
      JobList.get_pid (JobList.delete d jid).2 jid = none ∧
      JobList.get_cmdline (JobList.delete d jid).2 jid = none ∧
      (∀ k, k ≠ jid → hmGet ((JobList.delete d jid).2).jobs k = hmGet d.jobs k) ∧
      (d.fg_job = some jid → ((JobList.delete d jid).2).fg_job = none)) ∧
    (hmGet d.jobs jid = none → JobList.delete d jid = (false, d)) := by
  have hnd := h.1
  refine ⟨?_, ?_, fun habs => delete_absent d jid h habs⟩
  · cases hget : hmGet d.jobs jid with
    | none =>
      rw [delete_absent d jid h hget]
      simp
    | some v =>
      rw [delete_present d jid v hget]
      simp
  · intro v hget
    rw [delete_present d jid v hget]
    have hrm : hmGet (deletedState d jid).jobs jid = none := by
      simp only [deletedState]
      exact hmGet_hmRemoveKey_self d.jobs jid hnd
    refine ⟨?_, ?_, ?_, ?_, ?_⟩
    · simp [JobList.get_state, hrm]
    · simp [JobList.get_pid, hrm]
    · simp [JobList.get_cmdline, hrm]
    · intro k hk
      simp only [deletedState]
      exact hmGet_hmRemoveKey_ne d.jobs jid k hk
    · intro hfj
      simp [deletedState, hfj]

theorem C6_witness :
    Inv jobs012 ∧
    (((JobList.delete jobs012 1).1 = true ↔ (hmGet jobs012.jobs 1).isSome) ∧
      (∀ v, hmGet jobs012.jobs 1 = some v →
        JobList.get_state (JobList.delete jobs012 1).2 1 = none ∧
        JobList.get_pid (JobList.delete jobs012 1).2 1 = none ∧
        JobList.get_cmdline (JobList.delete jobs012 1).2 1 = none ∧
        (∀ k, k ≠ 1 → hmGet ((JobList.delete jobs012 1).2).jobs k = hmGet jobs012.jobs k) ∧
        (jobs012.fg_job = some 1 → ((JobList.delete jobs012 1).2).fg_job = none)) ∧
      (hmGet jobs012.jobs 1 = none → JobList.delete jobs012 1 = (false, jobs012))) :=
  ⟨by decide, C6_delete_semantics jobs012 1 (by decide)⟩

/-- C7: when the child has been spawned but registration in the job table
fails, the launcher prints the error from the table, kills the child and
then waits for its exit, in that order, and returns with the job table
exactly as it was — no entry for the spawned child remains; the error is
always the foreground-conflict message. -/
theorem C7_kill_and_reap_on_add_failure (d : JobData) (pid : Nat) (st : State)
    (cmdline e : String) (hR : Reachable d)
    (hfail : (JobList.add d pid st cmdline).1 = Except.error e) :
    run_command_after_spawn d pid st cmdline =
      ([Action.eprintMsg e, Action.killChild, Action.waitChild], d) ∧
    e = fgConflictMsg := by
  have hInv := reachable_inv d hR
  by_cases hc : st = State.FG ∧ d.fg_job.isSome
  · obtain ⟨hst, hfg⟩ := hc
    subst hst
    have hadd := add_conflict d pid cmdline hfg
    have he : fgConflictMsg = e := by
      have h2 := hfail
      rw [hadd] at h2
      exact Except.error.inj h2
    subst he
    refine ⟨?_, rfl⟩
    unfold run_command_after_spawn
    rw [hadd]
  · exfalso
    rw [add_ok d pid st cmdline (inv_fresh d hInv) hc] at hfail
    simp at hfail

theorem C7_witness :
    (Reachable oneFgTable ∧
      (JobList.add oneFgTable 9 State.FG "two").1 = Except.error fgConflictMsg) ∧
    (run_command_after_spawn oneFgTable 9 State.FG "two" =
        ([Action.eprintMsg fgConflictMsg, Action.killChild, Action.waitChild], oneFgTable) ∧
      fgConflictMsg = fgConflictMsg) :=
  ⟨⟨oneFgTable_reachable, by decide⟩,
    C7_kill_and_reap_on_add_failure oneFgTable 9 State.FG "two" fgConflictMsg
      oneFgTable_reachable (by decide)⟩

end Shell

namespace Shell

theorem render_ne_newline (st : State) : newlineChar ∉ (State.render st).data := by
  cases st <;> decide

theorem formatJob_data (jid : Nat) (j : Job) :
    (formatJob jid j).data =
      ("[" ++ natRepr jid ++ "] (" ++ natRepr j.pid ++ ") "
        ++ State.render j.state ++ " ").data ++ j.cmdline.data := by
  simp [formatJob, String.data_append]

theorem formatJob_prefix_ne_newline (jid : Nat) (j : Job) :
    newlineChar ∉ ("[" ++ natRepr jid ++ "] (" ++ natRepr j.pid ++ ") "
      ++ State.render j.state ++ " ").data := by
  intro hmem
  simp only [String.data_append, List.mem_append] at hmem
  rcases hmem with (((((h | h) | h) | h) | h) | h) | h
  · exact absurd h (by decide)
  · exact natRepr_ne_newline jid h
  · exact absurd h (by decide)
  · exact natRepr_ne_newline j.pid h
  · exact absurd h (by decide)
  · exact render_ne_newline j.state h
  · exact absurd h (by decide)

theorem printJobsAux_lines (l : List (Nat × Job))
    (h : ∀ p ∈ l, p.2.cmdline.data.dropLast ++ [newlineChar] = p.2.cmdline.data ∧
         newlineChar ∉ p.2.cmdline.data.dropLast) :
    splitLines (printJobsAux l).data =
      l.map (fun p => (formatJob p.1 p.2).data.dropLast) := by
  induction l with
  | nil => rfl
  | cons p rest ih =>
    obtain ⟨hline, hcore⟩ := h p (List.mem_cons_self p rest)
    have hrest : ∀ q ∈ rest, q.2.cmdline.data.dropLast ++ [newlineChar] = q.2.cmdline.data ∧
        newlineChar ∉ q.2.cmdline.data.dropLast :=
      fun q hq => h q (List.mem_cons_of_mem p hq)
    have hcat : (formatJob p.1 p.2).data =
        (("[" ++ natRepr p.1 ++ "] (" ++ natRepr p.2.pid ++ ") "
            ++ State.render p.2.state ++ " ").data ++ p.2.cmdline.data.dropLast) ++
          [newlineChar] := by
      rw [formatJob_data p.1 p.2]
      conv_lhs => rw [← hline]
      exact (List.append_assoc _ _ _).symm
    have hdrop : (formatJob p.1 p.2).data.dropLast =
        ("[" ++ natRepr p.1 ++ "] (" ++ natRepr p.2.pid ++ ") "
          ++ State.render p.2.state ++ " ").data ++ p.2.cmdline.data.dropLast := by
      rw [hcat, List.dropLast_concat]
    have hnl : newlineChar ∉
        ("[" ++ natRepr p.1 ++ "] (" ++ natRepr p.2.pid ++ ") "
          ++ State.render p.2.state ++ " ").data ++ p.2.cmdline.data.dropLast := by
      intro hmem
      rcases List.mem_append.mp hmem with hm | hm
      · exact formatJob_prefix_ne_newline p.1 p.2 hm
      · exact hcore hm
    calc splitLines (printJobsAux (p :: rest)).data
        = splitLines ((formatJob p.1 p.2).data ++ (printJobsAux rest).data) := by
          rw [printJobsAux, String.data_append]
      _ = (("[" ++ natRepr p.1 ++ "] (" ++ natRepr p.2.pid ++ ") "
              ++ State.render p.2.state ++ " ").data ++ p.2.cmdline.data.dropLast) ::
            splitLines (printJobsAux rest).data := by
          rw [hcat, List.append_assoc]
          exact splitLines_append_newline _ _ hnl
      _ = (formatJob p.1 p.2).data.dropLast :: splitLines (printJobsAux rest).data := by
          rw [hdrop]
      _ = (p :: rest).map (fun q => (formatJob q.1 q.2).data.dropLast) := by
          rw [ih hrest, List.map_cons]

/-- A table with two entries whose command lines do not end in a newline. -/
def twoJobsNoNewline : JobData :=
  { jobs := [(0, { pid := 1, state := State.BG, cmdline := "a" }),
             (1, { pid := 2, state := State.BG, cmdline := "b" })],
    fg_job := none, max_jid := some 1 }

/-- A table with two entries whose command lines end in a newline, as the
command lines the dispatcher stores always do. -/
def twoJobsNewline : JobData :=
  { jobs := [(0, { pid := 1, state := State.BG, cmdline := "a\n" }),
             (1, { pid := 2, state := State.BG, cmdline := "b\n" })],
    fg_job := none, max_jid := some 1 }

/-- C8 counterexample: the writer loop appends no separator after an
entry, so a table with two entries whose stored command lines do not end
in a newline produces one single line of output, not one line per entry. -/
theorem C8_counterexample :
    twoJobsNoNewline.jobs.length = 2 ∧
    (splitLines (JobList.print_jobs twoJobsNoNewline).data).length = 1 :=
  ⟨by decide, by decide⟩

/-- C8 (amended): the listing writes for each tracked entry exactly the
text bracketed job id, parenthesised pid, plain-text state name
(Foreground or Background) and command line, with no separator appended by
the listing itself; entries therefore occupy one line each exactly when
every stored command line ends in a newline and contains no interior
newline — which holds for the dispatcher, whose verbatim command lines
keep the final newline of the input — and in that case the output splits
into exactly the formatted entries, in iteration order. -/
theorem C8_jobs_listing_amended (d : JobData)
    (h : ∀ p ∈ d.jobs, p.2.cmdline.data.dropLast ++ [newlineChar] = p.2.cmdline.data ∧
         newlineChar ∉ p.2.cmdline.data.dropLast) :
    splitLines (JobList.print_jobs d).data =
      d.jobs.map (fun p => (formatJob p.1 p.2).data.dropLast) ∧
    State.render State.FG = "Foreground" ∧ State.render State.BG = "Background" :=
  ⟨printJobsAux_lines d.jobs h, rfl, rfl⟩

theorem C8_witness :
    (∀ p ∈ twoJobsNewline.jobs,
      p.2.cmdline.data.dropLast ++ [newlineChar] = p.2.cmdline.data ∧
      newlineChar ∉ p.2.cmdline.data.dropLast) ∧
    (splitLines (JobList.print_jobs twoJobsNewline).data =
        twoJobsNewline.jobs.map (fun p => (formatJob p.1 p.2).data.dropLast) ∧
      State.render State.FG = "Foreground" ∧ State.render State.BG = "Background") :=
  ⟨by decide, C8_jobs_listing_amended twoJobsNewline (by decide)⟩

end Shell

namespace Root

theorem addCont_states (d : JobData) (pid : Nat) (st : State) (cmd : String)
    (jid : Nat) (j : Job) (hj : j ∈ (addCont d pid st cmd jid).2.jobs) :
    j ∈ d.jobs ∨ j.state = st := by
  have hjobs : (if st = State.FG then { d with fg_job := some jid } else d).jobs = d.jobs := by
    split
    · rfl
    · rfl
  simp only [addCont] at hj
  split at hj
  · exact Or.inl hj
  · simp only [hjobs] at hj
    split at hj
    · exact Or.inl hj
    · simp only at hj
      rcases List.mem_or_eq_of_mem_set hj with hm | hm
      · exact Or.inl hm
      · exact Or.inr (by rw [hm])

theorem add_states (d : JobData) (pid : Nat) (st : State) (cmd : String) (j : Job)
    (hj : j ∈ (JobList.add d pid st cmd).2.jobs) : j ∈ d.jobs ∨ j.state = st := by
  simp only [JobList.add] at hj
  split at hj
  · exact Or.inl hj
  · split at hj
    · split at hj
      · exact Or.inl hj
      · exact addCont_states _ _ _ _ _ _ hj
    · exact addCont_states _ _ _ _ _ _ hj

theorem delete_states (d : JobData) (jid : Nat) (j : Job)
    (hj : j ∈ (JobList.delete d jid).2.jobs) : j ∈ d.jobs ∨ j.state = State.NT := by
  simp only [JobList.delete] at hj
  split at hj
  · exact Or.inl hj
  split at hj
  · exact Or.inl hj
  repeat' split at hj
  all_goals
    simp only at hj
  all_goals
    rcases List.mem_or_eq_of_mem_set hj with hm | hm
    · exact Or.inl hm
    · exact Or.inr (by rw [hm])

theorem setStateUpd_states (d1 : JobData) (jid : Nat) (st : State) (j : Job)
    (hj : j ∈ (setStateUpd d1 jid st).2.jobs) : j ∈ d1.jobs ∨ j.state = st := by
  rw [setStateUpd] at hj
  split at hj
  · split at hj
    all_goals
      simp only at hj
    all_goals
      rcases List.mem_or_eq_of_mem_set hj with hm | hm
      · exact Or.inl hm
      · exact Or.inr (by rw [hm])
  · exact Or.inl hj

theorem set_state_states (d : JobData) (jid : Nat) (st : State) (j : Job)
    (hj : j ∈ (JobList.set_state d jid st).2.jobs) : j ∈ d.jobs ∨ j.state = st := by
  rw [JobList.set_state] at hj
  split at hj
  · exact Or.inl hj
  split at hj
  · split at hj
    · exact Or.inl hj
    · exact setStateUpd_states { d with fg_job := some jid } jid st j hj
  · exact setStateUpd_states d jid st j hj

theorem new_states (j : Job) (hj : j ∈ JobList.new.jobs) : j.state = State.NT := by
  simp only [JobList.new, List.mem_replicate] at hj
  rw [hj.2]
  rfl

theorem clean_no_st (d : JobData) (h : CleanReachable d) :
    ∀ j ∈ d.jobs, j.state ≠ State.ST := by
  induction h with
  | init =>
    intro j hj
    rw [new_states j hj]
    decide
  | step_add d pid st cmd hst _ ih =>
    intro j hj
    rcases add_states d pid st cmd j hj with hm | hm
    · exact ih j hm
    · rcases hst with h1 | h1 <;> (rw [hm, h1]; decide)
  | step_delete d jid _ ih =>
    intro j hj
    rcases delete_states d jid j hj with hm | hm
    · exact ih j hm
    · rw [hm]; decide
  | step_set d jid st hst _ ih =>
    intro j hj
    rcases set_state_states d jid st j hj with hm | hm
    · exact ih j hm
    · rcases hst with h1 | h1 <;> (rw [hm, h1]; decide)

/-- C9 counterexample: the stop-marker state is reachable through the
exposed operations of the array snapshot — a single public `add` call that
requests `ST` succeeds from the empty table and leaves the entry at id 0
observable in state `ST`. -/
theorem C9_counterexample :
    Reachable (JobList.add JobList.new 1 State.ST "x").2 ∧
    JobList.get_state (JobList.add JobList.new 1 State.ST "x").2 0 = some State.ST :=
  ⟨Reachable.step_add JobList.new 1 State.ST "x" Reachable.init, by decide⟩

/-- C9 (amended): the stop-marker state is unreachable as long as no
caller passes `ST` itself: in every table state reachable by public
operations whose state arguments are only `Foreground` or `Background` —
the only states the shell dispatcher ever produces — no entry is in state
`ST` and no lookup ever observes `ST`. The unrestricted claim fails
because `add` and `set_state` accept an explicit `ST` argument. -/
theorem C9_no_stopped_state_amended (d : JobData) (h : CleanReachable d) :
    (∀ j ∈ d.jobs, j.state ≠ State.ST) ∧
    (∀ jid, JobList.get_state d jid ≠ some State.ST) := by
  refine ⟨clean_no_st d h, ?_⟩
  intro jid hcontra
  rw [JobList.get_state] at hcontra
  rcases hg : JobList.get d jid with _ | j
  · rw [hg] at hcontra
    simp at hcontra
  · rw [hg] at hcontra
    have hjst : j.state = State.ST := by
      simpa using hcontra
    have hmem : j ∈ d.jobs := by
      rw [JobList.get] at hg
      rcases hq : d.jobs.get? jid with _ | j2
      · rw [hq] at hg
        simp at hg
      · rw [hq] at hg
        by_cases hnt : j2.state = State.NT
        · simp [hnt] at hg
        · simp only [hnt, if_false, ite_false] at hg
          have hh : j2 = j := by simpa [hnt] using hg
          exact hh ▸ List.get?_mem hq
    exact clean_no_st d h j hmem hjst

theorem C9_witness :
    CleanReachable (JobList.add JobList.new 1 State.FG "one").2 ∧
    ((∀ j ∈ (JobList.add JobList.new 1 State.FG "one").2.jobs, j.state ≠ State.ST) ∧
      (∀ jid, JobList.get_state (JobList.add JobList.new 1 State.FG "one").2 jid ≠
        some State.ST)) :=
  ⟨CleanReachable.step_add JobList.new 1 State.FG "one" (Or.inl rfl) CleanReachable.init,
    C9_no_stopped_state_amended (JobList.add JobList.new 1 State.FG "one").2
      (CleanReachable.step_add JobList.new 1 State.FG "one" (Or.inl rfl)
        CleanReachable.init)⟩

/-- A table whose 64 slots are at capacity as far as the watermark is
concerned: `max_jid` is 63. -/
def fullTable : JobData :=
  { jobs := List.replicate MAXJOBS emptyJob, fg_job := none, max_jid := some 63 }

/-- C10 counterexample: with the watermark at 63 (so id + 1 = 64 is at the
MAXJOBS cap), an `add` requesting the `NT` marker fails with the
invalid-state message, not with the capacity message the claim asserts for
every add in such a state. -/
theorem C10_counterexample :
    fullTable.max_jid = some 63 ∧ 63 + 1 ≥ MAXJOBS ∧
    JobList.add fullTable 1 State.NT "x" =
      (Except.error "Invalid state for new job", fullTable) ∧
    "Invalid state for new job" ≠ "Too many jobs" :=
  ⟨by decide, by decide, by decide, by decide⟩

/-- C10 (amended): the array snapshot caps the table at MAXJOBS = 64 jobs,
a capacity limit the specification does not state: whenever the watermark
id satisfies id + 1 ≥ 64, `add` performs no mutation and fails — with the
message Too many jobs for every requested state other than the
never-insertable `NT` marker, and with the invalid-state message for `NT`
itself. -/
theorem C10_capacity_amended (d : JobData) (pid : Nat) (st : State) (cmd : String)
    (id : Nat) (hm : d.max_jid = some id) (hcap : id + 1 ≥ 64) (hst : st ≠ State.NT) :
    JobList.add d pid st cmd = (Except.error "Too many jobs", d) ∧
    JobList.add d pid State.NT cmd = (Except.error "Invalid state for new job", d) := by
  constructor
  · have hstep : JobList.add d pid st cmd =
        if id + 1 ≥ MAXJOBS then (Except.error "Too many jobs", d)
        else addCont d pid st cmd (id + 1) := by
      rw [JobList.add, if_neg hst, hm]
    have hcap2 : id + 1 ≥ MAXJOBS := hcap
    rw [hstep, if_pos hcap2]
  · rw [JobList.add, if_pos rfl]

theorem C10_witness :
    (fullTable.max_jid = some 63 ∧ 63 + 1 ≥ 64 ∧ State.BG ≠ State.NT) ∧
    (JobList.add fullTable 5 State.BG "x" = (Except.error "Too many jobs", fullTable) ∧
      JobList.add fullTable 5 State.NT "x" =
        (Except.error "Invalid state for new job", fullTable)) :=
  ⟨⟨by decide, by decide, by decide⟩,
    C10_capacity_amended fullTable 5 State.BG "x" 63 (by decide) (by decide) (by decide)⟩

end Root
